import Mathlib

/-!
Verification of the URL-encoded state synchronization subsystem of the
sw-color-tester repository: the VarInt numeric codec, the Base85
transcoder, the mixed-token compressor, the URL parameter transport and
the AppState store, shallowly embedded from the JavaScript source.

Byte buffers (JS `Uint8Array`) are modelled as `List Nat` with the bytes
known to be `< 256`; JS strings are Lean `String`s, with the string
operations the code uses re-implemented over `String.toList` so that
they are kernel-executable; fallible code returns `Except String`.
-/

namespace SwColorTester

/-! ### JavaScript string primitives used by the source -/

/-- Models `s.startsWith(pre)` for JS strings. -/
def jsStartsWith (s pre : String) : Bool :=
  pre.toList.isPrefixOf s.toList

/-- Models `s.substring(n)` (drop the first `n` characters). -/
def jsDropChars (s : String) (n : Nat) : String :=
  String.mk (s.toList.drop n)

/-- Models `s.includes(c)` for a single-character needle. -/
def jsIncludesChar (s : String) (c : Char) : Bool :=
  s.toList.contains c

/-- Digit-prefix accumulator for `jsParseInt`. -/
def digitsVal (l : List Char) (acc : Nat) : Nat :=
  l.foldl (fun a c => a * 10 + (c.toNat - 48)) acc

/-- Models `Number.parseInt(s, 10)`: an optional sign followed by a maximal
decimal-digit prefix; `none` models the `NaN` result.  (JS computes a float,
so values beyond 2^53 lose precision there; every theorem below only relies
on comparisons against 268435456 that are preserved by that rounding.) -/
def jsParseInt (s : String) : Option Int :=
  match s.toList with
  | '-' :: rest =>
      let ds := rest.takeWhile Char.isDigit
      if ds = [] then none else some (-(digitsVal ds 0 : Int))
  | '+' :: rest =>
      let ds := rest.takeWhile Char.isDigit
      if ds = [] then none else some (digitsVal ds 0 : Int)
  | l =>
      let ds := l.takeWhile Char.isDigit
      if ds = [] then none else some (digitsVal ds 0 : Int)

/-- Models `s.trim()`. -/
def jsTrim (s : String) : String :=
  String.mk (((s.toList.dropWhile Char.isWhitespace).reverse.dropWhile
    Char.isWhitespace).reverse)

/-- Splits a character list at every occurrence of `sep`, keeping empty
fields, as JS `String.prototype.split` does for a one-character separator. -/
def splitChars (sep : Char) : List Char → List (List Char)
  | [] => [[]]
  | c :: cs =>
      match splitChars sep cs with
      | [] => [[]]
      | g :: gs => if c = sep then [] :: g :: gs else (c :: g) :: gs

/-- Models `s.split(sep)` for a one-character separator string. -/
def jsSplit (s : String) (sep : Char) : List String :=
  (splitChars sep s.toList).map String.mk

/-! ### VarInt numeric codec (`encodeNumericIds` / `decodeNumericIds`) -/

/-- The VarInt byte branches of `encodeNumericIds` (source lines 56-76):
1-4 bytes for values below 268435456, an encoding error beyond. -/
def varIntBytes (num : Nat) : Except String (List Nat) :=
  if num < 128 then
    .ok [num]
  else if num < 16384 then
    .ok [0x80 ||| (num >>> 7), num &&& 0x7f]
  else if num < 2097152 then
    .ok [0x80 ||| (num >>> 14), 0x80 ||| ((num >>> 7) &&& 0x7f), num &&& 0x7f]
  else if num < 268435456 then
    .ok [0x80 ||| (num >>> 21), 0x80 ||| ((num >>> 14) &&& 0x7f),
         0x80 ||| ((num >>> 7) &&& 0x7f), num &&& 0x7f]
  else
    .error ("Number too large to encode: " ++ toString num)

/-- The `bright-` handling at the top of the encoder loop: whether the id
carries the flag, and the string that is fed to `parseInt`. -/
def stripBright (id : String) : Bool × String :=
  if jsStartsWith id "bright-" then (true, jsDropChars id 7) else (false, id)

/-- One iteration of the `encodeNumericIds` loop: validation, the
`0xFE 0x00` bright marker, then the VarInt bytes. -/
def encodeOneId (id : String) : Except String (List Nat) :=
  let hb := (stripBright id).1
  match jsParseInt (stripBright id).2 with
  | none => .error ("Invalid numeric ID: " ++ id)
  | some num =>
      if num < 0 then .error ("Invalid numeric ID: " ++ id)
      else
        match varIntBytes num.toNat with
        | .error e => .error e
        | .ok vb => .ok ((if hb then [0xfe, 0x00] else []) ++ vb)

/-- `encodeNumericIds(ids)`: concatenation of the per-id encodings, failing
at the first invalid or oversized id, `[]` for the empty input. -/
def encodeNumericIds : List String → Except String (List Nat)
  | [] => .ok []
  | id :: rest =>
      match encodeOneId id with
      | .error e => .error e
      | .ok b =>
          match encodeNumericIds rest with
          | .error e => .error e
          | .ok bs => .ok (b ++ bs)

/-- Unsigned 32-bit reinterpretation used by JS `ToUint32`. -/
def jsToUint32 (x : Int) : Nat := (x % 4294967296).toNat

/-- Signed 32-bit reinterpretation used by JS bitwise operators. -/
def jsToInt32 (x : Int) : Int :=
  let u := x % 4294967296
  if u < 2147483648 then u else u - 4294967296

/-- The decoder's accumulation step `num = (num << 7) | (byte & 0x7f)`,
with JS 32-bit signed wrap-around semantics.  The shifted pattern has its
low seven bits clear, so the bitwise-or is an addition. -/
def jsStep (num : Int) (byte : Nat) : Int :=
  jsToInt32 ((((jsToUint32 num * 128) % 4294967296 + (byte &&& 0x7f) : Nat)) : Int)

/-- The inner `while (true)` continuation loop of `decodeNumericIds`
(source lines 122-141): reads one byte, increments the count, folds the
low seven bits in, stops on a clear high bit, and errors on a fifth
continuation byte or a truncated buffer. -/
def decodeVarIntLoop (num : Int) (byteCount : Nat) :
    List Nat → Except String (Int × List Nat)
  | [] => .error "Unexpected end of buffer in multi-byte VarInt"
  | byte :: rest =>
      let byteCount' := byteCount + 1
      let num' := jsStep num byte
      if byte &&& 0x80 = 0 then .ok (num', rest)
      else if byteCount' > 4 then .error "VarInt too long (max 4 bytes)"
      else decodeVarIntLoop num' byteCount' rest

/-- Reads one VarInt given its first byte: either the single-byte form or
the multi-byte continuation loop. -/
def decodeOneVarInt (firstByte : Nat) (rest : List Nat) :
    Except String (Int × List Nat) :=
  if firstByte &&& 0x80 = 0 then .ok ((firstByte : Int), rest)
  else decodeVarIntLoop ((firstByte &&& 0x7f : Nat) : Int) 1 rest

/-- The outer `while (i < buffer.length)` loop of `decodeNumericIds`.
Each iteration consumes at least one byte, so `fuel := buffer.length`
always suffices; the fuel-exhaustion branch is unreachable and exists
only to make the recursion structural. -/
def decodeLoop : Nat → List Nat → Except String (List String)
  | _, [] => .ok []
  | 0, _ :: _ => .error "unreachable: fuel is at least the buffer length"
  | fuel + 1, b0 :: rest =>
      -- bright marker check `buffer[i] === 0xfe && i+1 < length &&
      -- buffer[i+1] === 0x00` (source line 100)
      if b0 = 0xfe ∧ rest.head? = some 0 then
        match rest.tail with
        | [] => .error "Unexpected end of buffer after bright marker"
        | fb :: rest3 =>
            match decodeOneVarInt fb rest3 with
            | .error e => .error e
            | .ok (num, rest4) =>
                match decodeLoop fuel rest4 with
                | .error e => .error e
                | .ok ids => .ok (("bright-" ++ toString num) :: ids)
      else
        match decodeOneVarInt b0 rest with
        | .error e => .error e
        | .ok (num, rest4) =>
            match decodeLoop fuel rest4 with
            | .error e => .error e
            | .ok ids => .ok (toString num :: ids)

/-- `decodeNumericIds(buffer)`: the outer loop run with sufficient fuel. -/
def decodeNumericIds (buffer : List Nat) : Except String (List String) :=
  decodeLoop buffer.length buffer

/-- Boolean error test on `Except`, used to state that a call throws. -/
def exceptIsError {ε α : Type} : Except ε α → Bool
  | .error _ => true
  | .ok _ => false

/-! ### Base85 transcoder (`toBase85` / `fromBase85`) -/

/-- The fixed 85-character alphabet (source `BASE85_CHARS`). -/
def BASE85_STRING : String :=
  "0123456789ABCDEFGHIJKLMNOPQRSTUVWXYZabcdefghijklmnopqrstuvwxyz!#$%&()*+-;<=>?@^_\x60\x7b|\x7d~"

/-- The alphabet as a character list. -/
def BASE85_CHARS : List Char := BASE85_STRING.toList

/-- Little-endian positional digits: `k` repeated divisions by `B`,
exactly the `value % 85` / `value / 85` (resp. `% 256` / `/ 256`)
extraction loops of the source. -/
def digitsLE (B : Nat) : Nat → Nat → List Nat
  | 0, _ => []
  | k + 1, v => v % B :: digitsLE B k (v / B)

/-- One 4-byte-chunk iteration of `toBase85` (source lines 183-217):
pack the bytes big-endian into `value`, extract `byteCount + 1` base-85
digits by repeated division, and emit them most-significant first.  (The
source's range check on each digit cannot fire, since `value % 85 < 85`.) -/
def encodeChunk (chunk : List Nat) : List Char :=
  let value := chunk.foldl (fun v b => v * 256 + b) 0
  ((digitsLE 85 (chunk.length + 1) value).reverse).map
    (fun d => BASE85_CHARS.getD d ' ')

/-- `toBase85(buffer)`: the chunking loop, four input bytes per step and a
final partial chunk, written out as structural recursion. -/
def toBase85 : List Nat → List Char
  | [] => []
  | [a] => encodeChunk [a]
  | [a, b] => encodeChunk [a, b]
  | [a, b, c] => encodeChunk [a, b, c]
  | a :: b :: c :: d :: rest => encodeChunk [a, b, c, d] ++ toBase85 rest

/-- The `charMap` reverse lookup of `fromBase85`: the index of a character
in the alphabet, `none` when absent (the alphabet has no duplicates, so
the JS object lookup agrees with the first index). -/
def indexInAlphabet : List Char → Char → Option Nat
  | [], _ => none
  | a :: rest, c =>
      if a = c then some 0 else (indexInAlphabet rest c).map (· + 1)

/-- The digit-accumulation loop of a `fromBase85` chunk (source lines
246-252), failing on a character outside the alphabet. -/
def decodeChunkValue : List Char → Nat → Except String Nat
  | [], acc => .ok acc
  | c :: rest, acc =>
      match indexInAlphabet BASE85_CHARS c with
      | none => .error ("Invalid Base85 character: " ++ String.mk [c])
      | some i => decodeChunkValue rest (acc * 85 + i)

/-- Big-endian byte extraction (source lines 259-262): `k` bytes obtained
by repeated `% 256` / `/ 256`, least significant extracted first and
prepended. -/
def bytesBE (k : Nat) (v : Nat) : List Nat := (digitsLE 256 k v).reverse

/-- One 5-character-chunk iteration of `fromBase85`: accumulate the digit
values, then emit `chunkLen - 1` bytes big-endian. -/
def decodeChunk (chunk : List Char) : Except String (List Nat) :=
  match decodeChunkValue chunk 0 with
  | .error e => .error e
  | .ok v => .ok (bytesBE (chunk.length - 1) v)

/-- `fromBase85(str)`: the chunking loop, five characters per step and a
final partial chunk, written out as structural recursion. -/
def fromBase85 : List Char → Except String (List Nat)
  | [] => .ok []
  | [a] => decodeChunk [a]
  | [a, b] => decodeChunk [a, b]
  | [a, b, c] => decodeChunk [a, b, c]
  | [a, b, c, d] => decodeChunk [a, b, c, d]
  | a :: b :: c :: d :: e :: rest =>
      match decodeChunk [a, b, c, d, e] with
      | .error err => .error err
      | .ok bytes =>
          match fromBase85 rest with
          | .error err => .error err
          | .ok tail => .ok (bytes ++ tail)

/-! ### Mixed-token compressor (`compressIds` / `decompressIds`) -/

/-- The `if (numericIds.length > 0) result += toBase85(...)` step of
`compressIds`: the Base85 numeric region, empty when there are no
numeric ids. -/
def compressNumericRegion (numericIds : List String) : Except String String :=
  if numericIds = [] then .ok "" else
    match encodeNumericIds numericIds with
    | .error e => .error e
    | .ok binary => .ok (String.mk (toBase85 binary))

/-- `compressIds(ids)`: partition on the presence of a colon, Base85-encode
the numeric subsequence, append the comma-joined group tokens after a dot,
and append the `n`/`g` position mask when both subsequences are nonempty. -/
def compressIds (ids : List String) : Except String String :=
  if ids = [] then .ok "" else
    let numericIds := ids.filter (fun id => !(jsIncludesChar id ':'))
    let groupIds := ids.filter (fun id => jsIncludesChar id ':')
    let positions := ids.map (fun id => if jsIncludesChar id ':' then 'g' else 'n')
    match compressNumericRegion numericIds with
    | .error e => .error e
    | .ok numPart =>
        let withGroups :=
          if groupIds = [] then numPart
          else numPart ++ "." ++ String.intercalate "," groupIds
        .ok (if numericIds ≠ [] ∧ groupIds ≠ [] then
          withGroups ++ "." ++ String.mk positions
        else withGroups)

/-- The `try`/`catch` around the numeric region of `decompressIds`:
decode errors are rewrapped with a `Failed to decompress` message. -/
def decodeNumericRegion (p : String) : Except String (List String) :=
  let attempt : Except String (List String) :=
    match fromBase85 p.toList with
    | .error e => .error e
    | .ok bin => decodeNumericIds bin
  match attempt with
  | .error e => .error ("Failed to decompress numeric IDs: " ++ e)
  | .ok v => .ok v

/-- The position-mask reconstruction loop of `decompressIds` (source lines
391-400); a JS out-of-range array read yields `undefined`, modelled by the
`"undefined"` sentinel (never reached on encoder outputs). -/
def reconstructOrder : List Char → List String → List String → List String
  | [], _, _ => []
  | c :: cs, nums, grps =>
      if c = 'n' then
        nums.headD "undefined" :: reconstructOrder cs nums.tail grps
      else
        grps.headD "undefined" :: reconstructOrder cs nums grps.tail

/-- The shared `if (numericPart.length > 0)` guard of the three
`decompressIds` shapes. -/
def decodeRegionOrEmpty (p : String) : Except String (List String) :=
  if p.length > 0 then decodeNumericRegion p else .ok []

/-- `decompressIds(compressed)`: split on dots and handle the 1-part,
2-part and 3-or-more-part shapes (extra parts beyond the third are
ignored, as in the source). -/
def decompressIds (compressed : String) : Except String (List String) :=
  if compressed = "" then .ok [] else
    match jsSplit compressed '.' with
    | [] => .ok []
    | [p0] =>
        if p0.length > 0 then decodeNumericRegion p0 else .ok []
    | [p0, p1] =>
        (match decodeRegionOrEmpty p0 with
        | .error e => .error e
        | .ok nums =>
            .ok (nums ++ (if p1.length > 0 then jsSplit p1 ',' else [])))
    | p0 :: p1 :: p2 :: _ =>
        (match decodeRegionOrEmpty p0 with
        | .error e => .error e
        | .ok nums =>
            let grps := if p1.length > 0 then jsSplit p1 ',' else []
            .ok (reconstructOrder p2.toList nums grps))

/-! ### URL parameter transport (`URLParameterManager`) -/

/-- The query string as an ordered association list, modelling
`URLSearchParams`. -/
def Params := List (String × String)

/-- `params.delete(k)`: removes every pair with that name. -/
def paramsDelete (params : List (String × String)) (k : String) :
    List (String × String) :=
  params.filter (fun p => p.1 ≠ k)

/-- `params.set(k, v)`: replaces the first pair with that name (dropping
later duplicates) or appends a new pair. -/
def paramsSet : List (String × String) → String → String → List (String × String)
  | [], k, v => [(k, v)]
  | (k', v') :: rest, k, v =>
      if k' = k then (k, v) :: paramsDelete rest k
      else (k', v') :: paramsSet rest k v

/-- `params.get(k)`: the first value with that name, `null` when absent. -/
def paramsGet (params : List (String × String)) (k : String) : Option String :=
  (params.find? (fun p => p.1 = k)).map (fun p => p.2)

/-- A value of a `batchUpdate` entry: `null`, an array, or a scalar. -/
inductive JsVal where
  | null : JsVal
  | arr : List String → JsVal
  | scalar : String → JsVal

/-- `URLParameterManager._processArrayParameter` (part_006 lines 624-660):
delete on empty, otherwise join the non-blank values with commas, deleting
when nothing survives the filter.  (JS filters `v && v.trim() !== ""`; the
empty string is falsy, and `jsTrim "" = ""`, so one trim test covers both.) -/
def processArrayParameter (params : List (String × String)) (k : String)
    (value : List String) : List (String × String) :=
  if value = [] then paramsDelete params k
  else
    let filteredValues := value.filter (fun v => jsTrim v ≠ "")
    if filteredValues ≠ [] then
      paramsSet params k (String.intercalate "," filteredValues)
    else paramsDelete params k

/-- `URLParameterManager._processScalarParameter`. -/
def processScalarParameter (params : List (String × String)) (k : String)
    (value : String) : List (String × String) :=
  if jsTrim value = "" then paramsDelete params k
  else paramsSet params k (jsTrim value)

/-- One entry of the `batchUpdate` loop. -/
def processEntry (params : List (String × String)) (k : String) :
    JsVal → List (String × String)
  | .null => paramsDelete params k
  | .arr l => processArrayParameter params k l
  | .scalar s => processScalarParameter params k s

/-- `URLParameterManager.batchUpdate(updates)`: apply every entry in order
to the current query string. -/
def batchUpdate (params : List (String × String))
    (updates : List (String × JsVal)) : List (String × String) :=
  updates.foldl (fun ps kv => processEntry ps kv.1 kv.2) params

/-- `URLParameterManager.getArrayParameter(name)` (part_006 lines 597-603):
the raw parameter value split on commas with blank segments dropped; an
absent or empty parameter gives the empty array.  No decompression and no
error handling happens here. -/
def getArrayParameter (value : Option String) : List String :=
  match value with
  | none => []
  | some v =>
      if v = "" then []
      else (jsSplit v ',').filter (fun item => jsTrim item ≠ "")

/-! ### Color catalog (`ColorModel`) -/

/-- A catalog record as the core consumes it: identifier, ordered family
names (primary first), branded-collection (category) names, archived flag. -/
structure ColorRecord where
  id : String
  colorFamilyNames : List String
  brandedCollectionNames : List String
  archived : Bool

/-- The catalog: `ColorModel` holds the raw color data. -/
structure ColorModel where
  colorData : List ColorRecord

/-- `ColorModel.getActiveColors()` (part_004): the non-archived records. -/
def getActiveColors (m : ColorModel) : List ColorRecord :=
  m.colorData.filter (fun c => !c.archived)

/-- A color's primary family: the first listed family name, none when the
record lists no families. -/
def primaryFamily (c : ColorRecord) : Option String :=
  c.colorFamilyNames.head?

/-- First-occurrence deduplication, the iteration order of a JS `Set` or
of `Object.keys` over insertion. -/
def dedupKeepFirst : List String → List String
  | [] => []
  | x :: xs => x :: (dedupKeepFirst xs).filter (fun y => y ≠ x)

/-- Modelled from the spec: `ColorModel.getColorIdsForFamily(name,
excludeIds)` is called by `AppState` but missing from the sources (the
part_004 snapshot predates it); per §4.4 it returns the ids of the active
colors whose primary (first listed) family is `name`, excluding the ids
listed in `excludeIds`. -/
def getColorIdsForFamily (m : ColorModel) (familyName : String)
    (excludeIds : List String) : List String :=
  ((getActiveColors m).filter
    (fun c => primaryFamily c = some familyName ∧ c.id ∉ excludeIds)).map
    (fun c => c.id)

/-- Modelled from the spec: `ColorModel.getColorIdsForCategory(name,
excludeIds)`, missing from the sources like its family counterpart; per
§4.4 a color counts under every listed category, and the ids in
`excludeIds` are excluded. -/
def getColorIdsForCategory (m : ColorModel) (categoryName : String)
    (excludeIds : List String) : List String :=
  ((getActiveColors m).filter
    (fun c => categoryName ∈ c.brandedCollectionNames ∧ c.id ∉ excludeIds)).map
    (fun c => c.id)

/-- The family group keys of `getHiddenGroups` (part_004 lines 177-196):
primary family names of active colors, in first-occurrence order. -/
def familyNames (m : ColorModel) : List String :=
  dedupKeepFirst ((getActiveColors m).filterMap primaryFamily)

/-- The category group keys of `getHiddenGroups`: every listed category of
every active color, in first-occurrence order. -/
def categoryNames (m : ColorModel) : List String :=
  dedupKeepFirst ((getActiveColors m).flatMap (fun c => c.brandedCollectionNames))

/-- Modelled from the spec: the exclusion-aware
`ColorModel.getHiddenFamilies(colorIds, exclusionIds)` that `AppState`
calls is missing from the sources (part_004's `getHiddenGroups` ignores
the exclusion argument); per §4.4 and following part_004's structure, a
family matches when its membership computed excluding `exclusionIds` is
nonempty (part_004's `groupColors.length > 0` guard) and every member is
in `colorIds`. -/
def getHiddenFamilies (m : ColorModel) (colorIds exclusionIds : List String) :
    List String :=
  (familyNames m).filter (fun f =>
    let mem := getColorIdsForFamily m f exclusionIds
    mem ≠ [] ∧ ∀ x ∈ mem, x ∈ colorIds)

/-- Modelled from the spec: the exclusion-aware
`ColorModel.getHiddenCategories(colorIds, exclusionIds)`, as for
families but over every listed category. -/
def getHiddenCategories (m : ColorModel) (colorIds exclusionIds : List String) :
    List String :=
  (categoryNames m).filter (fun g =>
    let mem := getColorIdsForCategory m g exclusionIds
    mem ≠ [] ∧ ∀ x ∈ mem, x ∈ colorIds)

/-! ### State store (`AppState`) -/

/-- `new Set(...)` insertion-order add: append unless already present. -/
def jsSetAdd (s : List String) (x : String) : List String :=
  if x ∈ s then s else s ++ [x]

/-- `Set.prototype.delete`: remove the element, keeping order. -/
def jsSetDelete (s : List String) (x : String) : List String :=
  s.filter (fun y => y ≠ x)

/-- `new Set(colorIds)` then `Array.from`: first-occurrence dedup. -/
def jsSetFromList (l : List String) : List String := dedupKeepFirst l

/-- The in-memory `AppState`: the two id sets (as insertion-ordered lists)
and the optional catalog reference. -/
structure AppStateM where
  favorites : List String
  hidden : List String
  colorModel : Option ColorModel

/-- `AppState._consolidateColorIds(colorIds, exclusionIds)` (AppState.js
lines 84-126): passthrough without a catalog or on an empty input;
otherwise replace each fully-selected family's and category's member ids
with its group token. -/
def consolidateColorIds (m? : Option ColorModel)
    (colorIds exclusionIds : List String) : List String :=
  match m? with
  | none => colorIds
  | some m =>
      if colorIds = [] then colorIds else
        let consolidated := jsSetFromList colorIds
        let afterFamilies :=
          (getHiddenFamilies m colorIds exclusionIds).foldl
            (fun acc f =>
              jsSetAdd
                ((getColorIdsForFamily m f exclusionIds).foldl jsSetDelete acc)
                ("family:" ++ f))
            consolidated
        (getHiddenCategories m colorIds exclusionIds).foldl
          (fun acc g =>
            jsSetAdd
              ((getColorIdsForCategory m g exclusionIds).foldl jsSetDelete acc)
              ("category:" ++ g))
          afterFamilies

/-- `AppState._expandGroupIds(ids)` (AppState.js lines 41-75): passthrough
without a catalog; otherwise a `family:`/`category:` token contributes its
member ids (favorites excluded) and a bare id contributes itself, gathered
into a set in insertion order. -/
def expandGroupIds (m? : Option ColorModel) (favoriteIds ids : List String) :
    List String :=
  match m? with
  | none => ids
  | some m =>
      jsSetFromList (ids.flatMap (fun id =>
        if jsStartsWith id "family:" then
          getColorIdsForFamily m (jsDropChars id 7) favoriteIds
        else if jsStartsWith id "category:" then
          getColorIdsForCategory m (jsDropChars id 9) favoriteIds
        else [id]))

/-- `AppState.loadFromURL()` together with the constructor: both sets are
populated from the `favorites` and `hidden` parameters through
`getArrayParameter` and `_expandGroupIds`; at construction time the
favorites set consulted by the expansion is still empty. -/
def appStateInit (m? : Option ColorModel) (favParam hidParam : Option String) :
    AppStateM :=
  { favorites := expandGroupIds m? [] (getArrayParameter favParam)
    hidden := expandGroupIds m? [] (getArrayParameter hidParam)
    colorModel := m? }

/-- `AppState.syncToURL()` (AppState.js lines 170-181): consolidate both
sets (each excluding the other) and write both parameters in one
`batchUpdate`. -/
def syncToURL (st : AppStateM) (params : List (String × String)) :
    List (String × String) :=
  let consolidatedFavorites :=
    consolidateColorIds st.colorModel st.favorites st.hidden
  let consolidatedHidden :=
    consolidateColorIds st.colorModel st.hidden st.favorites
  batchUpdate params
    [("favorites", .arr consolidatedFavorites), ("hidden", .arr consolidatedHidden)]

/-- `AppState.toggleFavorite(colorId)`: flip membership, then sync. -/
def toggleFavorite (st : AppStateM) (params : List (String × String))
    (colorId : String) : AppStateM × List (String × String) :=
  let st' := { st with favorites :=
    (if colorId ∈ st.favorites then jsSetDelete st.favorites colorId
     else jsSetAdd st.favorites colorId) }
  (st', syncToURL st' params)

/-- `AppState.toggleHidden(colorId)`. -/
def toggleHidden (st : AppStateM) (params : List (String × String))
    (colorId : String) : AppStateM × List (String × String) :=
  let st' := { st with hidden :=
    (if colorId ∈ st.hidden then jsSetDelete st.hidden colorId
     else jsSetAdd st.hidden colorId) }
  (st', syncToURL st' params)

/-- `AppState.addMultipleFavorites(colorIds)` via `_bulkOperation`. -/
def addMultipleFavorites (st : AppStateM) (params : List (String × String))
    (colorIds : List String) : AppStateM × List (String × String) :=
  let st' := { st with favorites := colorIds.foldl jsSetAdd st.favorites }
  (st', syncToURL st' params)

/-- `AppState.removeMultipleFavorites(colorIds)`. -/
def removeMultipleFavorites (st : AppStateM) (params : List (String × String))
    (colorIds : List String) : AppStateM × List (String × String) :=
  let st' := { st with favorites := colorIds.foldl jsSetDelete st.favorites }
  (st', syncToURL st' params)

/-- `AppState.addMultipleHidden(colorIds)`. -/
def addMultipleHidden (st : AppStateM) (params : List (String × String))
    (colorIds : List String) : AppStateM × List (String × String) :=
  let st' := { st with hidden := colorIds.foldl jsSetAdd st.hidden }
  (st', syncToURL st' params)

/-- `AppState.removeMultipleHidden(colorIds)`. -/
def removeMultipleHidden (st : AppStateM) (params : List (String × String))
    (colorIds : List String) : AppStateM × List (String × String) :=
  let st' := { st with hidden := colorIds.foldl jsSetDelete st.hidden }
  (st', syncToURL st' params)

/-- `AppState.clearFavorites()`. -/
def clearFavorites (st : AppStateM) (params : List (String × String)) :
    AppStateM × List (String × String) :=
  let st' := { st with favorites := [] }
  (st', syncToURL st' params)

/-- `AppState.clearHidden()`. -/
def clearHidden (st : AppStateM) (params : List (String × String)) :
    AppStateM × List (String × String) :=
  let st' := { st with hidden := [] }
  (st', syncToURL st' params)

/-! ### Concrete catalogs used by counterexamples and witnesses -/

/-- A catalog with a single active color whose primary family is `Red`. -/
def tinyCatalog : ColorModel := ⟨[⟨"1", ["Red"], [], false⟩]⟩

/-- A catalog with family `Red` = colors 10, 20, 30 and family `Blue` =
color 40; colors 30 and 40 also belong to category `Warm`. -/
def testCatalog : ColorModel :=
  ⟨[⟨"10", ["Red"], [], false⟩, ⟨"20", ["Red"], [], false⟩,
    ⟨"30", ["Red"], ["Warm"], false⟩, ⟨"40", ["Blue"], ["Warm"], false⟩]⟩

/-! ### Theorems for the claims -/

/-- Claim C1: the round-trip law `decodeNumericIds (encodeNumericIds ids)
= ids` fails on the code.  The valid plain id `"16128"` VarInt-encodes to
the two bytes `0xFE 0x00` — exactly the bright marker — so the list
`["16128", "5"]` encodes to `[0xFE, 0x00, 0x05]`, which the decoder reads
back as `["bright-5"]`. -/
theorem C1_roundtrip_fails :
    encodeNumericIds ["16128", "5"] = .ok [0xfe, 0x00, 0x05] ∧
    decodeNumericIds [0xfe, 0x00, 0x05] = .ok ["bright-5"] ∧
    ["bright-5"] ≠ ["16128", "5"] :=
  ⟨rfl, rfl, by decide⟩

/-- Claim C3: the bright marker `0xFE 0x00` *can* occur as the VarInt
encoding of a plain value — the two-byte encoding of 16128 is
`0x80 ||| (16128 >>> 7) = 0xFE` followed by `16128 &&& 0x7F = 0x00` — so
the decoder's marker recognition is ambiguous: decoding the encoder's
output for `["16128"]` fails.  The claim's concrete boundary case
(`["bright-0", "0"]`) does round-trip. -/
theorem C3_marker_collides :
    encodeNumericIds ["16128"] = .ok [0xfe, 0x00] ∧
    decodeNumericIds [0xfe, 0x00] =
      .error "Unexpected end of buffer after bright marker" ∧
    encodeNumericIds ["bright-0", "0"] = .ok [0xfe, 0x00, 0x00, 0x00] ∧
    decodeNumericIds [0xfe, 0x00, 0x00, 0x00] = .ok ["bright-0", "0"] :=
  ⟨rfl, rfl, rfl, rfl⟩

/-- Claim C4: the compressor round-trip law fails on the code, inheriting
the VarInt marker collision: `["16128", "5"]` is a list of numeric tokens
within the VarInt range, yet it compresses to the Base85 payload `"R8|4"`
which decompresses to `["bright-5"]`.  The empty-list edge cases do hold. -/
theorem C4_roundtrip_fails :
    compressIds ["16128", "5"] = .ok "R8|4" ∧
    decompressIds "R8|4" = .ok ["bright-5"] ∧
    ["bright-5"] ≠ ["16128", "5"] ∧
    compressIds [] = .ok "" ∧
    decompressIds "" = .ok [] :=
  ⟨rfl, rfl, by decide, rfl, rfl⟩

/-- Claim C2 counterexample: with favorites `{"1747", "2997"}` the value
`syncToURL` writes to the `favorites` parameter is the plain comma-joined
list `"1747,2997"`, not the Mixed-Token Compressor payload (which would be
`"jZ>F3"` for the same consolidated token list): the persist path never
calls `compressIds`. -/
theorem C2_counterexample :
    paramsGet (syncToURL ⟨["1747", "2997"], [], none⟩ []) "favorites" =
      some "1747,2997" ∧
    compressIds (consolidateColorIds none ["1747", "2997"] []) =
      .ok "jZ>F3" ∧
    ("1747,2997" : String) ≠ "jZ>F3" :=
  ⟨rfl, rfl, by decide⟩

/-- Claim C6 counterexample: in `tinyCatalog` the family `Red` exists and
its membership computed excluding the exclusion list `["1"]` is empty,
hence (vacuously) a subset of the input `colorIds = []`; the claim as
stated then demands the token `family:Red` in the result, but
`_consolidateColorIds` returns an empty input unchanged. -/
theorem C6_counterexample :
    "Red" ∈ familyNames tinyCatalog ∧
    getColorIdsForFamily tinyCatalog "Red" ["1"] = [] ∧
    (∀ y ∈ getColorIdsForFamily tinyCatalog "Red" ["1"],
      y ∈ ([] : List String)) ∧
    consolidateColorIds (some tinyCatalog) [] ["1"] = [] ∧
    "family:Red" ∉ consolidateColorIds (some tinyCatalog) [] ["1"] :=
  ⟨by decide, rfl, by decide, rfl, by decide⟩

/-- Claim C7 counterexample: `"[[["` is a malformed payload — `[` is not a
Base85 character and `decompressIds` rejects it — yet loading a URL whose
`favorites` parameter holds it populates the set with the literal id
`"[[["` instead of treating the parameter as absent and leaving the set
empty. -/
theorem C7_counterexample :
    '[' ∉ BASE85_CHARS ∧
    decompressIds "[[[" =
      .error "Failed to decompress numeric IDs: Invalid Base85 character: [" ∧
    (appStateInit none (some "[[[") none).favorites = ["[[["] ∧
    (["[[["] : List String) ≠ [] :=
  ⟨by decide, rfl, rfl, by decide⟩

/-- Claim C8 counterexample: the buffer `[0x81, 0x80, 0x80, 0x80, 0x00]`
is a five-byte number whose fifth byte terminates; the decoder accepts it
(producing `"268435456"`, one beyond the encoder's four-byte ceiling)
instead of enforcing a four-byte cap. -/
theorem C8_counterexample :
    decodeNumericIds [0x81, 0x80, 0x80, 0x80, 0x00] = .ok ["268435456"] ∧
    [0x81, 0x80, 0x80, 0x80, 0x00].length = 5 :=
  ⟨rfl, rfl⟩

/-- Values below the four-byte ceiling always take one of the four VarInt
branches, yielding one to four bytes. -/
theorem varIntBytes_ok_of_lt (v : Nat) (h : v < 268435456) :
    ∃ vb, varIntBytes v = .ok vb ∧ 1 ≤ vb.length ∧ vb.length ≤ 4 := by
  unfold varIntBytes
  split_ifs with h1 h2 h3
  · exact ⟨_, rfl, by simp, by simp⟩
  · exact ⟨_, rfl, by simp, by simp⟩
  · exact ⟨_, rfl, by simp, by simp⟩
  · exact ⟨_, rfl, by simp, by simp⟩

/-- A singleton list encodes to the optional bright marker followed by the
value's VarInt bytes. -/
theorem encodeNumericIds_singleton (id : String) (n : Int) (vb : List Nat)
    (hn : jsParseInt (stripBright id).2 = some n) (h0 : ¬ n < 0)
    (hvb : varIntBytes n.toNat = .ok vb) :
    encodeNumericIds [id] =
      .ok ((if (stripBright id).1 then [0xfe, 0x00] else []) ++ vb) := by
  have henc : encodeOneId id =
      .ok ((if (stripBright id).1 then [0xfe, 0x00] else []) ++ vb) := by
    unfold encodeOneId
    simp only [hn, hvb]
    rw [if_neg h0]
  simp [encodeNumericIds, henc]

/-- Claim C9: an id whose parsed numeric value is at least 268435456 makes
`encodeNumericIds` (and `compressIds`, when the id is a numeric token)
raise an encoding error, while every value in `[0, 268435455]` encodes
successfully as a one-to-four-byte VarInt after the optional marker. -/
theorem C9_overflow_boundary (id : String) (n : Int)
    (hn : jsParseInt (stripBright id).2 = some n) :
    (268435456 ≤ n →
      exceptIsError (encodeNumericIds [id]) = true ∧
      (jsIncludesChar id ':' = false →
        exceptIsError (compressIds [id]) = true)) ∧
    (0 ≤ n → n < 268435456 →
      ∃ vb, varIntBytes n.toNat = .ok vb ∧ 1 ≤ vb.length ∧ vb.length ≤ 4 ∧
        encodeNumericIds [id] =
          .ok ((if (stripBright id).1 then [0xfe, 0x00] else []) ++ vb)) := by
  constructor
  · intro hge
    have hvb : varIntBytes n.toNat =
        .error ("Number too large to encode: " ++ toString n.toNat) := by
      unfold varIntBytes
      rw [if_neg (by omega), if_neg (by omega), if_neg (by omega),
        if_neg (by omega)]
    have henc : encodeOneId id =
        .error ("Number too large to encode: " ++ toString n.toNat) := by
      unfold encodeOneId
      simp only [hn, hvb]
      rw [if_neg (by omega)]
    have hlist : encodeNumericIds [id] =
        .error ("Number too large to encode: " ++ toString n.toNat) := by
      simp [encodeNumericIds, henc]
    refine ⟨by simp [hlist, exceptIsError], ?_⟩
    intro hcol
    have hfil : ([id].filter (fun i => !(jsIncludesChar i ':'))) = [id] := by
      simp [List.filter, hcol]
    have hreg : compressNumericRegion [id] =
        .error ("Number too large to encode: " ++ toString n.toNat) := by
      unfold compressNumericRegion
      rw [if_neg (by simp)]
      simp [hlist]
    unfold compressIds
    rw [if_neg (by simp)]
    simp only [hfil, hreg, exceptIsError]
  · intro h0 hlt
    obtain ⟨vb, hvb, h1, h4⟩ := varIntBytes_ok_of_lt n.toNat (by omega)
    exact ⟨vb, hvb, h1, h4,
      encodeNumericIds_singleton id n vb hn (by omega) hvb⟩

/-- Witness for C9: the spec's boundary value `"268435456"` makes both the
codec and the compressor raise an encoding error. -/
theorem C9_witness :
    exceptIsError (encodeNumericIds ["268435456"]) = true ∧
    exceptIsError (compressIds ["268435456"]) = true := by
  have h := (C9_overflow_boundary "268435456" 268435456 (by decide)).1
    (by decide)
  exact ⟨h.1, h.2 (by decide)⟩

/-! Helper lemmas about lists and strings. -/

theorem getD_mem_of_lt (l : List Char) (d : Nat) (x : Char) (h : d < l.length) :
    l.getD d x ∈ l := by
  induction l generalizing d with
  | nil => simp at h
  | cons a t ih =>
      cases d with
      | zero => simp [List.getD]
      | succ d =>
          have := ih d (by simpa using h)
          simp [List.getD] at this ⊢
          right
          simpa [List.getD] using this

theorem mem_of_mem_takeWhile {p : Char → Bool} {l : List Char} {c : Char}
    (h : c ∈ l.takeWhile p) : c ∈ l := by
  induction l with
  | nil => simp [List.takeWhile] at h
  | cons a t ih =>
      rw [List.takeWhile] at h
      rcases hp : p a with _ | _
      · rw [hp] at h; simp at h
      · rw [hp] at h
        rcases List.mem_cons.mp h with h1 | h1
        · simp [h1]
        · exact List.mem_cons_of_mem _ (ih h1)

theorem takeWhile_append_stop (p : Char → Bool) (l1 l2 : List Char) (x : Char)
    (h1 : ∀ c ∈ l1, p c = true) (hx : p x = false) :
    (l1 ++ x :: l2).takeWhile p = l1 := by
  induction l1 with
  | nil => simp [List.takeWhile, hx]
  | cons a t ih =>
      have ha : p a = true := h1 a (by simp)
      have ht := ih (fun c hc => h1 c (by simp [hc]))
      simp only [List.cons_append, List.takeWhile, ha, List.append_eq, ht]

theorem toList_mk (l : List Char) : (String.mk l).toList = l := rfl

theorem toList_append (a b : String) :
    (a ++ b).toList = a.toList ++ b.toList := by
  cases a; cases b; rfl

/-! Alphabet lemmas for C10. -/

theorem digitsLE_lt (B k v : Nat) (hB : 0 < B) :
    ∀ d ∈ digitsLE B k v, d < B := by
  induction k generalizing v with
  | zero => simp [digitsLE]
  | succ k ih =>
      intro d hd
      rw [digitsLE] at hd
      rcases List.mem_cons.mp hd with h | h
      · subst h; exact Nat.mod_lt _ hB
      · exact ih _ d h

theorem encodeChunk_subset (chunk : List Nat) :
    ∀ c ∈ encodeChunk chunk, c ∈ BASE85_CHARS := by
  intro c hc
  unfold encodeChunk at hc
  simp only [List.mem_map, List.mem_reverse] at hc
  obtain ⟨d, hd, rfl⟩ := hc
  have hlt : d < 85 := digitsLE_lt 85 _ _ (by norm_num) d hd
  have h85 : BASE85_CHARS.length = 85 := by decide
  exact getD_mem_of_lt _ _ _ (by rw [h85]; exact hlt)

theorem toBase85_subset :
    ∀ (buffer : List Nat), ∀ c ∈ toBase85 buffer, c ∈ BASE85_CHARS := by
  intro buffer
  induction buffer using toBase85.induct with
  | case1 => simp [toBase85]
  | case2 a => simpa [toBase85] using encodeChunk_subset [a]
  | case3 a b => simpa [toBase85] using encodeChunk_subset [a, b]
  | case4 a b c => simpa [toBase85] using encodeChunk_subset [a, b, c]
  | case5 a b c d rest ih =>
      intro x hx
      rw [toBase85] at hx
      rcases List.mem_append.mp hx with h | h
      · exact encodeChunk_subset [a, b, c, d] x h
      · exact ih x h

theorem compressNumericRegion_subset (l : List String) (numPart : String)
    (h : compressNumericRegion l = .ok numPart) :
    ∀ c ∈ numPart.toList, c ∈ BASE85_CHARS := by
  unfold compressNumericRegion at h
  by_cases hl : l = []
  · rw [if_pos hl] at h
    obtain rfl : ("" : String) = numPart := by
      simpa using h
    intro c hc
    simp at hc
  · rw [if_neg hl] at h
    rcases he : encodeNumericIds l with e | bin
    · rw [he] at h; exact absurd h (by simp)
    · rw [he] at h
      obtain rfl : String.mk (toBase85 bin) = numPart := by
        simpa using h
      intro c hc
      rw [toList_mk] at hc
      exact toBase85_subset bin c hc

/-- The `compressIds` body for a nonempty input, with the `let`-bindings
inlined so that case analysis can rewrite freely. -/
theorem compressIds_eq (ids : List String) (h : ids ≠ []) :
    compressIds ids =
      match compressNumericRegion
          (ids.filter (fun id => !(jsIncludesChar id ':'))) with
      | .error e => .error e
      | .ok numPart =>
          .ok (if (ids.filter (fun id => !(jsIncludesChar id ':'))) ≠ [] ∧
                  (ids.filter (fun id => jsIncludesChar id ':')) ≠ [] then
                (if (ids.filter (fun id => jsIncludesChar id ':')) = [] then
                    numPart
                  else numPart ++ "." ++ String.intercalate ","
                    (ids.filter (fun id => jsIncludesChar id ':'))) ++ "." ++
                String.mk (ids.map
                  (fun id => if jsIncludesChar id ':' then 'g' else 'n'))
              else
                (if (ids.filter (fun id => jsIncludesChar id ':')) = [] then
                    numPart
                  else numPart ++ "." ++ String.intercalate ","
                    (ids.filter (fun id => jsIncludesChar id ':')))) := by
  unfold compressIds
  rw [if_neg h]

/-- Claim C10: the 85-character alphabet contains neither `.` nor `,`;
every character `toBase85` emits belongs to it; consequently the Base85
numeric region of any `compressIds` output — the prefix of the payload up
to the first dot — consists of alphabet characters only, so the region
split on `.` cannot cut inside the numeric region. -/
theorem C10_numeric_region_clean :
    BASE85_CHARS.length = 85 ∧ '.' ∉ BASE85_CHARS ∧ ',' ∉ BASE85_CHARS ∧
    (∀ buffer : List Nat, ∀ c ∈ toBase85 buffer, c ∈ BASE85_CHARS) ∧
    (∀ ids s, compressIds ids = .ok s →
      ∀ c ∈ s.toList.takeWhile (fun c => c ≠ '.'), c ∈ BASE85_CHARS) := by
  refine ⟨by decide, by decide, by decide, toBase85_subset, ?_⟩
  intro ids s h c hc
  have hdot : ('.' : Char) ∉ BASE85_CHARS := by decide
  by_cases hids : ids = []
  · rw [hids] at h
    obtain rfl : ("" : String) = s := by
      simpa [compressIds] using h
    simp [List.takeWhile] at hc
  · rw [compressIds_eq ids hids] at h
    rcases hreg : compressNumericRegion
        (ids.filter (fun id => !(jsIncludesChar id ':'))) with e | numPart
    · rw [hreg] at h; exact absurd h (by simp)
    · rw [hreg] at h
      dsimp only [] at h
      have hsub := compressNumericRegion_subset _ _ hreg
      have hptrue : ∀ x ∈ numPart.toList,
          (fun c => decide (c ≠ '.')) x = true := by
        intro x hx
        have hmem : x ∈ BASE85_CHARS := hsub x hx
        simp only [decide_eq_true_eq]
        intro hEq
        subst hEq
        exact hdot hmem
      by_cases hg : (ids.filter (fun id => jsIncludesChar id ':')) = []
      · have hcond : ¬ ((ids.filter (fun id => !(jsIncludesChar id ':'))) ≠ [] ∧
            (ids.filter (fun id => jsIncludesChar id ':')) ≠ []) := by
          simp [hg]
        rw [if_neg hcond, if_pos hg] at h
        obtain rfl : numPart = s := by simpa using h
        exact hsub c (mem_of_mem_takeWhile hc)
      · by_cases hnum : (ids.filter (fun id => !(jsIncludesChar id ':'))) = []
        · have hcond : ¬ ((ids.filter (fun id => !(jsIncludesChar id ':'))) ≠ [] ∧
              (ids.filter (fun id => jsIncludesChar id ':')) ≠ []) := by
            simp [hnum]
          rw [if_neg hcond, if_neg hg] at h
          obtain rfl : numPart ++ "." ++ String.intercalate ","
              (ids.filter (fun id => jsIncludesChar id ':')) = s := by
            simpa using h
          simp only [toList_append, show (".".toList : List Char) = ['.'] from
            rfl, List.append_assoc, List.singleton_append,
            List.cons_append] at hc
          rw [takeWhile_append_stop _ _ _ '.' hptrue (by decide)] at hc
          exact hsub c hc
        · have hcond : ((ids.filter (fun id => !(jsIncludesChar id ':'))) ≠ [] ∧
              (ids.filter (fun id => jsIncludesChar id ':')) ≠ []) := ⟨hnum, hg⟩
          rw [if_pos hcond, if_neg hg] at h
          obtain rfl : numPart ++ "." ++ String.intercalate ","
              (ids.filter (fun id => jsIncludesChar id ':')) ++ "." ++
              String.mk (ids.map
                (fun id => if jsIncludesChar id ':' then 'g' else 'n')) = s := by
            simpa using h
          simp only [toList_append, show (".".toList : List Char) = ['.'] from
            rfl, List.append_assoc, List.singleton_append,
            List.cons_append] at hc
          rw [takeWhile_append_stop _ _ _ '.' hptrue (by decide)] at hc
          exact hsub c hc

/-- Witness for C10: a character of a concrete `compressIds` payload's
numeric region is in the alphabet. -/
theorem C10_witness : 'j' ∈ BASE85_CHARS :=
  C10_numeric_region_clean.2.2.2.1 [141, 83, 151, 53] 'j' (by decide)

/-! Association-list lemmas for the URL parameter transport. -/

theorem paramsGet_cons (a : String × String) (t : List (String × String))
    (q : String) :
    paramsGet (a :: t) q = if a.1 = q then some a.2 else paramsGet t q := by
  unfold paramsGet
  rw [List.find?_cons]
  by_cases h : a.1 = q <;> simp [h]

theorem paramsDelete_cons (a : String × String) (t : List (String × String))
    (k : String) :
    paramsDelete (a :: t) k =
      if a.1 = k then paramsDelete t k else a :: paramsDelete t k := by
  unfold paramsDelete
  rw [List.filter_cons]
  by_cases h : a.1 = k <;> simp [h]

theorem paramsSet_cons (a : String × String) (t : List (String × String))
    (k v : String) :
    paramsSet (a :: t) k v =
      if a.1 = k then (k, v) :: paramsDelete t k else a :: paramsSet t k v := by
  rcases a with ⟨k', v'⟩
  rw [paramsSet]

theorem paramsGet_delete_self (ps : List (String × String)) (k : String) :
    paramsGet (paramsDelete ps k) k = none := by
  induction ps with
  | nil => rfl
  | cons a t ih =>
      rw [paramsDelete_cons]
      by_cases ha : a.1 = k
      · rw [if_pos ha]; exact ih
      · rw [if_neg ha, paramsGet_cons, if_neg ha]; exact ih

theorem paramsGet_delete_other (ps : List (String × String)) (k q : String)
    (h : q ≠ k) : paramsGet (paramsDelete ps k) q = paramsGet ps q := by
  induction ps with
  | nil => rfl
  | cons a t ih =>
      rw [paramsDelete_cons]
      by_cases ha : a.1 = k
      · have haq : ¬ a.1 = q := fun hq => h (hq.symm.trans ha)
        rw [if_pos ha, paramsGet_cons, if_neg haq]; exact ih
      · rw [if_neg ha, paramsGet_cons, paramsGet_cons]
        by_cases haq : a.1 = q
        · rw [if_pos haq, if_pos haq]
        · rw [if_neg haq, if_neg haq]; exact ih

theorem paramsGet_set_self (ps : List (String × String)) (k v : String) :
    paramsGet (paramsSet ps k v) k = some v := by
  induction ps with
  | nil => rw [paramsSet, paramsGet_cons, if_pos rfl]
  | cons a t ih =>
      rw [paramsSet_cons]
      by_cases ha : a.1 = k
      · rw [if_pos ha, paramsGet_cons, if_pos rfl]
      · rw [if_neg ha, paramsGet_cons, if_neg ha]; exact ih

theorem paramsGet_set_other (ps : List (String × String)) (k v : String)
    (q : String) (h : q ≠ k) :
    paramsGet (paramsSet ps k v) q = paramsGet ps q := by
  induction ps with
  | nil =>
      rw [paramsSet, paramsGet_cons,
        if_neg (show ¬ ((k, v).1 = q) from fun hq => h hq.symm)]
  | cons a t ih =>
      rw [paramsSet_cons]
      by_cases ha : a.1 = k
      · rw [if_pos ha, paramsGet_cons, paramsGet_cons]
        rw [if_neg (show ¬ ((k, v).1 = q) from fun hq => h hq.symm)]
        rw [if_neg (show ¬ a.1 = q from fun hq => h (hq.symm.trans ha))]
        exact paramsGet_delete_other t k q h
      · rw [if_neg ha, paramsGet_cons, paramsGet_cons]
        by_cases haq : a.1 = q
        · rw [if_pos haq, if_pos haq]
        · rw [if_neg haq, if_neg haq]; exact ih

/-- `_processArrayParameter` leaves other parameters untouched. -/
theorem paramsGet_processArray_other (ps : List (String × String))
    (k : String) (v : List String) (q : String) (h : q ≠ k) :
    paramsGet (processArrayParameter ps k v) q = paramsGet ps q := by
  by_cases h1 : v = []
  · subst h1
    simp only [processArrayParameter, if_pos rfl]
    exact paramsGet_delete_other ps k q h
  · unfold processArrayParameter
    rw [if_neg h1]
    dsimp only
    by_cases h2 : v.filter (fun x => jsTrim x ≠ "") ≠ []
    · rw [if_pos h2]; exact paramsGet_set_other ps k _ q h
    · rw [if_neg h2]; exact paramsGet_delete_other ps k q h

/-- What `_processArrayParameter` leaves under its own key: the comma-join
of the non-blank values, or nothing at all. -/
theorem paramsGet_processArray_self (ps : List (String × String))
    (k : String) (v : List String) :
    paramsGet (processArrayParameter ps k v) k =
      (if v.filter (fun x => jsTrim x ≠ "") = [] then none
       else some (String.intercalate "," (v.filter (fun x => jsTrim x ≠ "")))) := by
  by_cases h1 : v = []
  · subst h1
    simp [processArrayParameter, paramsGet_delete_self]
  · by_cases h2 : v.filter (fun x => jsTrim x ≠ "") = []
    · rw [if_pos h2]
      unfold processArrayParameter
      rw [if_neg h1]
      dsimp only
      rw [if_neg (by simpa using h2)]
      exact paramsGet_delete_self ps k
    · rw [if_neg h2]
      unfold processArrayParameter
      rw [if_neg h1]
      dsimp only
      rw [if_pos h2]
      exact paramsGet_set_self ps k _

/-- Claim C2 (amended): every mutating store call persists through
`syncToURL`, and the value `syncToURL` writes to the `favorites` (resp.
`hidden`) parameter is the plain comma-joined consolidated token list —
the parameter is deleted when nothing non-blank remains — with the
Mixed-Token Compressor playing no part. -/
theorem C2_persist_comma_join (st : AppStateM)
    (params : List (String × String)) :
    (paramsGet (syncToURL st params) "favorites" =
      (if (consolidateColorIds st.colorModel st.favorites st.hidden).filter
          (fun x => jsTrim x ≠ "") = [] then none
       else some (String.intercalate ","
         ((consolidateColorIds st.colorModel st.favorites st.hidden).filter
           (fun x => jsTrim x ≠ ""))))) ∧
    (paramsGet (syncToURL st params) "hidden" =
      (if (consolidateColorIds st.colorModel st.hidden st.favorites).filter
          (fun x => jsTrim x ≠ "") = [] then none
       else some (String.intercalate ","
         ((consolidateColorIds st.colorModel st.hidden st.favorites).filter
           (fun x => jsTrim x ≠ ""))))) ∧
    (∀ id, (toggleFavorite st params id).2 =
      syncToURL (toggleFavorite st params id).1 params) ∧
    (∀ id, (toggleHidden st params id).2 =
      syncToURL (toggleHidden st params id).1 params) ∧
    (∀ ids, (addMultipleFavorites st params ids).2 =
      syncToURL (addMultipleFavorites st params ids).1 params) ∧
    (∀ ids, (removeMultipleFavorites st params ids).2 =
      syncToURL (removeMultipleFavorites st params ids).1 params) ∧
    (∀ ids, (addMultipleHidden st params ids).2 =
      syncToURL (addMultipleHidden st params ids).1 params) ∧
    (∀ ids, (removeMultipleHidden st params ids).2 =
      syncToURL (removeMultipleHidden st params ids).1 params) ∧
    ((clearFavorites st params).2 = syncToURL (clearFavorites st params).1 params) ∧
    ((clearHidden st params).2 = syncToURL (clearHidden st params).1 params) := by
  have hfh : ("favorites" : String) ≠ "hidden" := by decide
  have hsync : syncToURL st params =
      processArrayParameter
        (processArrayParameter params "favorites"
          (consolidateColorIds st.colorModel st.favorites st.hidden))
        "hidden" (consolidateColorIds st.colorModel st.hidden st.favorites) := by
    rfl
  refine ⟨?_, ?_, fun _ => rfl, fun _ => rfl, fun _ => rfl, fun _ => rfl,
    fun _ => rfl, fun _ => rfl, rfl, rfl⟩
  · rw [hsync, paramsGet_processArray_other _ _ _ _ hfh,
      paramsGet_processArray_self]
  · rw [hsync, paramsGet_processArray_self]

/-- The split of a comma-free character list is a single field. -/
theorem splitChars_of_not_mem (sep : Char) (l : List Char) (h : sep ∉ l) :
    splitChars sep l = [l] := by
  induction l with
  | nil => rfl
  | cons c cs ih =>
      have hcs : sep ∉ cs := fun hm => h (List.mem_cons_of_mem _ hm)
      have hc : ¬ c = sep := fun hEq => h (by simp [hEq])
      rw [splitChars, ih hcs]
      simp [hc]

theorem mk_toList (s : String) : String.mk s.toList = s := by
  cases s; rfl

/-- Claim C7 (amended): loading never throws and performs no decoding at
all: with no catalog the populated set is exactly `getArrayParameter` of
the raw value — the comma-separated non-blank segments — so a malformed
payload without commas loads as that literal singleton id, not as the
empty set; only an absent parameter is guaranteed to give the empty set. -/
theorem C7_load_literal_segments (fav hid : Option String) :
    (appStateInit none fav hid).favorites = getArrayParameter fav ∧
    (appStateInit none fav hid).hidden = getArrayParameter hid ∧
    getArrayParameter none = [] ∧
    (∀ s : String, s ≠ "" → ',' ∉ s.toList → jsTrim s ≠ "" →
      getArrayParameter (some s) = [s]) := by
  refine ⟨rfl, rfl, rfl, ?_⟩
  intro s h1 h2 h3
  have harr : getArrayParameter (some s) =
      (if s = "" then []
       else (jsSplit s ',').filter (fun item => jsTrim item ≠ "")) := rfl
  rw [harr, if_neg h1]
  unfold jsSplit
  rw [splitChars_of_not_mem ',' s.toList h2]
  simp [List.filter, mk_toList, h3]

/-- Witness for the amended C7: the malformed payload `"[[["` loads as the
literal singleton `["[[["]`. -/
theorem C7_witness : getArrayParameter (some "[[[") = ["[[["] :=
  (C7_load_literal_segments (some "[[[") none).2.2.2 "[[["
    (by decide) (by decide) (by decide)

/-! Decode-loop lemmas for C8. -/

/-- Injectivity helper: equal `ok` pairs have equal second components. -/
theorem exceptOk_pair_snd {α β : Type} {a v : α} {b rest : β}
    (h : (Except.ok (a, b) : Except String (α × β)) = .ok (v, rest)) :
    rest = b := by
  cases h; rfl

/-- A successful continuation-loop run consumes at least one byte. -/
theorem decodeVarIntLoop_length (l : List Nat) :
    ∀ (num : Int) (c : Nat) (v : Int) (rest : List Nat),
      decodeVarIntLoop num c l = .ok (v, rest) → rest.length < l.length := by
  induction l with
  | nil => intro num c v rest h; exact absurd h (by simp [decodeVarIntLoop])
  | cons byte t ih =>
      intro num c v rest h
      rw [decodeVarIntLoop] at h
      by_cases hb : byte &&& 0x80 = 0
      · rw [if_pos hb] at h
        obtain rfl := exceptOk_pair_snd h
        simp
      · rw [if_neg hb] at h
        by_cases hc : c + 1 > 4
        · rw [if_pos hc] at h; exact absurd h (by simp)
        · rw [if_neg hc] at h
          have := ih _ _ _ _ h
          simp
          omega

/-- A successful single-VarInt read never grows the remaining buffer. -/
theorem decodeOneVarInt_length (fb : Nat) (l : List Nat) (v : Int)
    (rest : List Nat) (h : decodeOneVarInt fb l = .ok (v, rest)) :
    rest.length ≤ l.length := by
  unfold decodeOneVarInt at h
  by_cases hb : fb &&& 0x80 = 0
  · rw [if_pos hb] at h
    obtain rfl := exceptOk_pair_snd h
    exact Nat.le_refl _
  · rw [if_neg hb] at h
    exact Nat.le_of_lt (decodeVarIntLoop_length l _ _ _ _ h)

/-- If the continuation loop's input ends with a high-bit byte and the
loop succeeds, the unread remainder still ends with that byte. -/
theorem decodeVarIntLoop_getLast (lastb : Nat) (hl : lastb &&& 0x80 ≠ 0) :
    ∀ (l : List Nat) (num : Int) (c : Nat) (v : Int) (rest : List Nat),
      l.getLast? = some lastb →
      decodeVarIntLoop num c l = .ok (v, rest) →
      rest.getLast? = some lastb := by
  intro l
  induction l with
  | nil => intro num c v rest h1 h2; exact absurd h2 (by simp [decodeVarIntLoop])
  | cons byte t ih =>
      intro num c v rest h1 h2
      rw [decodeVarIntLoop] at h2
      by_cases hb : byte &&& 0x80 = 0
      · rw [if_pos hb] at h2
        obtain rfl := exceptOk_pair_snd h2
        cases rest with
        | nil =>
            have hbl : byte = lastb := by simpa using h1
            exact absurd (hbl ▸ hb) hl
        | cons x xs => simpa [List.getLast?_cons_cons] using h1
      · rw [if_neg hb] at h2
        by_cases hc : c + 1 > 4
        · rw [if_pos hc] at h2; exact absurd h2 (by simp)
        · rw [if_neg hc] at h2
          cases t with
          | nil => exact absurd h2 (by simp [decodeVarIntLoop])
          | cons x xs =>
              exact ih _ _ _ _ (by simpa [List.getLast?_cons_cons] using h1) h2

/-- As above, for a whole single-VarInt read given its first byte. -/
theorem decodeOneVarInt_getLast (lastb : Nat) (hl : lastb &&& 0x80 ≠ 0)
    (fb : Nat) (l : List Nat) (v : Int) (rest : List Nat)
    (h1 : (fb :: l).getLast? = some lastb)
    (h2 : decodeOneVarInt fb l = .ok (v, rest)) :
    rest.getLast? = some lastb := by
  unfold decodeOneVarInt at h2
  by_cases hb : fb &&& 0x80 = 0
  · rw [if_pos hb] at h2
    obtain rfl := exceptOk_pair_snd h2
    cases rest with
    | nil =>
        have hbl : fb = lastb := by simpa using h1
        exact absurd (hbl ▸ hb) hl
    | cons x xs => simpa [List.getLast?_cons_cons] using h1
  · rw [if_neg hb] at h2
    cases l with
    | nil => exact absurd h2 (by simp [decodeVarIntLoop])
    | cons x xs =>
        exact decodeVarIntLoop_getLast lastb hl _ _ _ _ _
          (by simpa [List.getLast?_cons_cons] using h1) h2

/-- A buffer whose final byte has its high bit set always makes the outer
decode loop fail, with any sufficient fuel. -/
theorem decodeLoop_lastHigh :
    ∀ (fuel : Nat) (buf : List Nat) (lastb : Nat),
      buf.getLast? = some lastb → lastb &&& 0x80 ≠ 0 →
      buf.length ≤ fuel → exceptIsError (decodeLoop fuel buf) = true := by
  intro fuel
  induction fuel with
  | zero =>
      intro buf lastb h1 h2 h3
      cases buf with
      | nil => simp at h1
      | cons b0 rest => simp [decodeLoop, exceptIsError]
  | succ fuel ih =>
      intro buf lastb h1 h2 h3
      cases buf with
      | nil => simp at h1
      | cons b0 rest =>
          rw [decodeLoop]
          by_cases hm : b0 = 0xfe ∧ rest.head? = some 0
          · rw [if_pos hm]
            cases rest with
            | nil => simp at hm
            | cons r1 rest2 =>
                have hr1 : r1 = 0 := by simpa using hm.2
                subst hr1
                cases rest2 with
                | nil => simp [exceptIsError]
                | cons fb rest3 =>
                    rcases hdec : decodeOneVarInt fb rest3 with e | ⟨v, rest4⟩
                    · simp [hdec, exceptIsError]
                    · have hfb : (fb :: rest3).getLast? = some lastb := by
                        simpa [List.getLast?_cons_cons] using h1
                      have h4 := decodeOneVarInt_getLast lastb h2 fb rest3 v
                        rest4 hfb hdec
                      have hlen := decodeOneVarInt_length fb rest3 v rest4 hdec
                      have hbuf : rest4.length ≤ fuel := by
                        simp at h3; omega
                      have hrec := ih rest4 lastb h4 h2 hbuf
                      rcases hr : decodeLoop fuel rest4 with e2 | ids
                      · simp [hdec, hr, exceptIsError]
                      · rw [hr] at hrec; simp [exceptIsError] at hrec
          · rw [if_neg hm]
            rcases hdec : decodeOneVarInt b0 rest with e | ⟨v, rest4⟩
            · simp [hdec, exceptIsError]
            · have h4 := decodeOneVarInt_getLast lastb h2 b0 rest v rest4 h1 hdec
              have hlen := decodeOneVarInt_length b0 rest v rest4 hdec
              have hbuf : rest4.length ≤ fuel := by
                simp at h3; omega
              have hrec := ih rest4 lastb h4 h2 hbuf
              rcases hr : decodeLoop fuel rest4 with e2 | ids
              · simp [hdec, hr, exceptIsError]
              · rw [hr] at hrec; simp [exceptIsError] at hrec

/-- Claim C8 (amended): the decoder detects truncation — any buffer whose
last byte has its high bit set fails with a parse error, never reading out
of bounds — and a fifth *continuation* byte always fails with `VarInt too
long`; the four-byte cap, however, is checked only on continuation bytes,
so a number terminated by its fifth byte is accepted (see the
counterexample). -/
theorem C8_truncation_and_cap :
    (∀ (buf : List Nat) (lastb : Nat), (∀ x ∈ buf, x < 256) →
      buf.getLast? = some lastb → lastb &&& 0x80 ≠ 0 →
      exceptIsError (decodeNumericIds buf) = true) ∧
    (∀ (num : Int) (b2 b3 b4 b5 : Nat) (rest : List Nat),
      b2 &&& 0x80 ≠ 0 → b3 &&& 0x80 ≠ 0 → b4 &&& 0x80 ≠ 0 → b5 &&& 0x80 ≠ 0 →
      decodeVarIntLoop num 1 (b2 :: b3 :: b4 :: b5 :: rest) =
        .error "VarInt too long (max 4 bytes)") := by
  constructor
  · intro buf lastb _h256 h1 h2
    exact decodeLoop_lastHigh buf.length buf lastb h1 h2 (Nat.le_refl _)
  · intro num b2 b3 b4 b5 rest h2 h3 h4 h5
    rw [decodeVarIntLoop, if_neg h2, if_neg (by norm_num)]
    rw [decodeVarIntLoop, if_neg h3, if_neg (by norm_num)]
    rw [decodeVarIntLoop, if_neg h4, if_neg (by norm_num)]
    rw [decodeVarIntLoop, if_neg h5, if_pos (by norm_num)]

/-- Witness for the amended C8: the one-byte buffer `[0x81]` — a trailing
continuation byte — makes the decoder fail. -/
theorem C8_witness : exceptIsError (decodeNumericIds [0x81]) = true :=
  C8_truncation_and_cap.1 [0x81] 0x81 (by decide) (by decide) (by decide)

/-! Set and fold lemmas for the consolidation engine (C6). -/

theorem jsIncludesChar_iff (s : String) (c : Char) :
    jsIncludesChar s c = true ↔ c ∈ s.toList := by
  simp [jsIncludesChar, List.contains_iff_exists_mem_beq, beq_iff_eq, eq_comm]

theorem mem_jsSetAdd (s : List String) (x y : String) :
    y ∈ jsSetAdd s x ↔ y ∈ s ∨ y = x := by
  unfold jsSetAdd
  by_cases h : x ∈ s
  · rw [if_pos h]
    constructor
    · exact Or.inl
    · rintro (hy | rfl)
      · exact hy
      · exact h
  · rw [if_neg h]
    simp

theorem mem_jsSetDelete (s : List String) (x y : String) :
    y ∈ jsSetDelete s x ↔ y ∈ s ∧ y ≠ x := by
  simp [jsSetDelete, List.mem_filter]

theorem mem_dedupKeepFirst (l : List String) (x : String) :
    x ∈ dedupKeepFirst l ↔ x ∈ l := by
  induction l with
  | nil => simp [dedupKeepFirst]
  | cons a t ih =>
      rw [dedupKeepFirst]
      constructor
      · intro h
        rcases List.mem_cons.mp h with rfl | h
        · simp
        · exact List.mem_cons_of_mem _ (ih.mp (List.mem_filter.mp h).1)
      · intro h
        rcases List.mem_cons.mp h with rfl | h
        · simp
        · by_cases hxa : x = a
          · simp [hxa]
          · exact List.mem_cons_of_mem _
              (List.mem_filter.mpr ⟨ih.mpr h, by simpa using hxa⟩)

theorem mem_foldl_jsSetDelete (l : List String) :
    ∀ (acc : List String) (y : String),
      y ∈ l.foldl jsSetDelete acc ↔ y ∈ acc ∧ y ∉ l := by
  induction l with
  | nil => simp
  | cons a t ih =>
      intro acc y
      rw [List.foldl_cons, ih, mem_jsSetDelete]
      constructor
      · rintro ⟨⟨hy, hne⟩, ht⟩
        exact ⟨hy, by simp [hne, ht]⟩
      · rintro ⟨hy, hmem⟩
        simp only [List.mem_cons, not_or] at hmem
        exact ⟨⟨hy, hmem.1⟩, hmem.2⟩

/-- Membership after the family/category replacement fold of
`_consolidateColorIds`: an element survives iff it was present and in no
replaced group's membership, or it is one of the added group tokens.
Group members never contain a colon while tokens always do, so the added
tokens are never deleted by later groups. -/
theorem mem_consolidateFold (M : String → List String)
    (tok : String → String)
    (hM : ∀ f x, x ∈ M f → jsIncludesChar x ':' = false)
    (htok : ∀ f, jsIncludesChar (tok f) ':' = true) :
    ∀ (names acc : List String) (y : String),
      y ∈ names.foldl
        (fun acc f => jsSetAdd ((M f).foldl jsSetDelete acc) (tok f)) acc ↔
      ((y ∈ acc ∧ ∀ f ∈ names, y ∉ M f) ∨ ∃ f ∈ names, y = tok f) := by
  intro names
  induction names with
  | nil => simp
  | cons f0 names' ih =>
      intro acc y
      rw [List.foldl_cons, ih, mem_jsSetAdd, mem_foldl_jsSetDelete]
      by_cases hy : jsIncludesChar y ':' = true
      · have hnotM : ∀ f, y ∉ M f := by
          intro f hmem
          rw [hM f y hmem] at hy
          exact absurd hy (by simp)
        simp only [List.forall_mem_cons, List.exists_mem_cons_iff]
        constructor
        · rintro (⟨(⟨hacc, _⟩ | rfl), _⟩ | ⟨f, hf, rfl⟩)
          · exact Or.inl ⟨hacc, hnotM f0, fun f _ => hnotM f⟩
          · exact Or.inr (Or.inl rfl)
          · exact Or.inr (Or.inr ⟨f, hf, rfl⟩)
        · rintro (⟨hacc, _, _⟩ | htk | ⟨f, hf, rfl⟩)
          · exact Or.inl ⟨Or.inl ⟨hacc, hnotM f0⟩, fun f _ => hnotM f⟩
          · exact Or.inl ⟨Or.inr htk, fun f _ => hnotM f⟩
          · exact Or.inr ⟨f, hf, rfl⟩
      · have hnty : ∀ f, y ≠ tok f := by
          intro f hEq
          rw [hEq] at hy
          exact hy (htok f)
        simp only [List.forall_mem_cons, List.exists_mem_cons_iff]
        constructor
        · rintro (⟨(⟨hacc, hnf0⟩ | rfl), hrest⟩ | ⟨f, hf, rfl⟩)
          · exact Or.inl ⟨hacc, hnf0, hrest⟩
          · exact absurd rfl (hnty f0)
          · exact absurd rfl (hnty f)
        · rintro (⟨hacc, hnf0, hrest⟩ | htk | ⟨f, hf, rfl⟩)
          · exact Or.inl ⟨Or.inl ⟨hacc, hnf0⟩, hrest⟩
          · exact absurd htk (hnty f0)
          · exact absurd rfl (hnty f)

/-- Group tokens always contain a colon. -/
theorem famTok_hasColon (f : String) :
    jsIncludesChar ("family:" ++ f) ':' = true := by
  rw [jsIncludesChar_iff, toList_append]
  exact List.mem_append_left _ (by decide)

theorem catTok_hasColon (g : String) :
    jsIncludesChar ("category:" ++ g) ':' = true := by
  rw [jsIncludesChar_iff, toList_append]
  exact List.mem_append_left _ (by decide)

/-- String prefixing with a fixed token kind is injective. -/
theorem prefix_append_inj {p f g : String} (h : p ++ f = p ++ g) : f = g := by
  have hl : p.toList ++ f.toList = p.toList ++ g.toList := by
    rw [← toList_append, ← toList_append, h]
  have := List.append_cancel_left hl
  rw [← mk_toList f, ← mk_toList g, this]

/-- A `family:` token never equals a `category:` token. -/
theorem famTok_ne_catTok (f g : String) :
    ("family:" ++ f) ≠ ("category:" ++ g) := by
  intro h
  have h1 : ("family:" ++ f).toList.head? = some 'f' := by
    rw [toList_append]; rfl
  have h2 : ("category:" ++ g).toList.head? = some 'c' := by
    rw [toList_append]; rfl
  rw [h, h2] at h1
  exact absurd h1 (by decide)

/-- Unfolds membership in the (spec-modelled) family member list. -/
theorem mem_getColorIdsForFamily (m : ColorModel) (f : String)
    (excl : List String) (x : String) :
    x ∈ getColorIdsForFamily m f excl ↔
      ∃ c, c ∈ getActiveColors m ∧ primaryFamily c = some f ∧
        c.id ∉ excl ∧ c.id = x := by
  unfold getColorIdsForFamily
  simp [List.mem_map, List.mem_filter, and_assoc]

/-- Unfolds membership in the (spec-modelled) category member list. -/
theorem mem_getColorIdsForCategory (m : ColorModel) (g : String)
    (excl : List String) (x : String) :
    x ∈ getColorIdsForCategory m g excl ↔
      ∃ c, c ∈ getActiveColors m ∧ g ∈ c.brandedCollectionNames ∧
        c.id ∉ excl ∧ c.id = x := by
  unfold getColorIdsForCategory
  simp [List.mem_map, List.mem_filter, and_assoc]

/-- With a colon-free catalog, family members are colon-free. -/
theorem getColorIdsForFamily_no_colon (m : ColorModel)
    (hcat : ∀ c ∈ m.colorData, jsIncludesChar c.id ':' = false)
    (f : String) (excl : List String) :
    ∀ x ∈ getColorIdsForFamily m f excl, jsIncludesChar x ':' = false := by
  intro x hx
  rw [mem_getColorIdsForFamily] at hx
  obtain ⟨c, hact, _, _, rfl⟩ := hx
  have hc : c ∈ m.colorData := by
    unfold getActiveColors at hact
    exact (List.mem_filter.mp hact).1
  exact hcat c hc

/-- With a colon-free catalog, category members are colon-free. -/
theorem getColorIdsForCategory_no_colon (m : ColorModel)
    (hcat : ∀ c ∈ m.colorData, jsIncludesChar c.id ':' = false)
    (g : String) (excl : List String) :
    ∀ x ∈ getColorIdsForCategory m g excl, jsIncludesChar x ':' = false := by
  intro x hx
  rw [mem_getColorIdsForCategory] at hx
  obtain ⟨c, hact, _, _, rfl⟩ := hx
  have hc : c ∈ m.colorData := by
    unfold getActiveColors at hact
    exact (List.mem_filter.mp hact).1
  exact hcat c hc

/-- A family with a member is one of the catalog's family keys. -/
theorem mem_familyNames_of_mem (m : ColorModel) (f : String)
    (excl : List String) (x : String)
    (hx : x ∈ getColorIdsForFamily m f excl) : f ∈ familyNames m := by
  rw [mem_getColorIdsForFamily] at hx
  obtain ⟨c, hact, hpf, _, _⟩ := hx
  unfold familyNames
  rw [mem_dedupKeepFirst]
  exact List.mem_filterMap.mpr ⟨c, hact, hpf⟩

/-- A category with a member is one of the catalog's category keys. -/
theorem mem_categoryNames_of_mem (m : ColorModel) (g : String)
    (excl : List String) (x : String)
    (hx : x ∈ getColorIdsForCategory m g excl) : g ∈ categoryNames m := by
  rw [mem_getColorIdsForCategory] at hx
  obtain ⟨c, hact, hg, _, _⟩ := hx
  unfold categoryNames
  rw [mem_dedupKeepFirst]
  exact List.mem_flatMap.mpr ⟨c, hact, hg⟩

/-- Membership in the fully-selected family list. -/
theorem mem_getHiddenFamilies (m : ColorModel)
    (colorIds excl : List String) (f : String) :
    f ∈ getHiddenFamilies m colorIds excl ↔
      f ∈ familyNames m ∧ getColorIdsForFamily m f excl ≠ [] ∧
        ∀ x ∈ getColorIdsForFamily m f excl, x ∈ colorIds := by
  unfold getHiddenFamilies
  simp [List.mem_filter, and_assoc]

/-- Membership in the fully-selected category list. -/
theorem mem_getHiddenCategories (m : ColorModel)
    (colorIds excl : List String) (g : String) :
    g ∈ getHiddenCategories m colorIds excl ↔
      g ∈ categoryNames m ∧ getColorIdsForCategory m g excl ≠ [] ∧
        ∀ x ∈ getColorIdsForCategory m g excl, x ∈ colorIds := by
  unfold getHiddenCategories
  simp [List.mem_filter, and_assoc]

/-- Claim C6 (amended): for a nonempty, colon-free `colorIds`,
`_consolidateColorIds` contains the token `family:f` (resp. `category:g`)
exactly when `f` is a catalog family whose membership, computed excluding
`exclusionIds`, is *nonempty* and contained in `colorIds`; a bare color id
survives exactly when it is in `colorIds` and covered by no fully-matched
group.  (For empty `colorIds` the function returns its input unchanged —
see the counterexample.) -/
theorem C6_consolidation_exact (m : ColorModel)
    (colorIds exclusionIds : List String)
    (hcat : ∀ c ∈ m.colorData, jsIncludesChar c.id ':' = false)
    (hids : ∀ id ∈ colorIds, jsIncludesChar id ':' = false)
    (hne : colorIds ≠ []) :
    (∀ f, ("family:" ++ f) ∈ consolidateColorIds (some m) colorIds exclusionIds ↔
        (f ∈ familyNames m ∧ getColorIdsForFamily m f exclusionIds ≠ [] ∧
         ∀ x ∈ getColorIdsForFamily m f exclusionIds, x ∈ colorIds)) ∧
    (∀ g, ("category:" ++ g) ∈ consolidateColorIds (some m) colorIds exclusionIds ↔
        (g ∈ categoryNames m ∧ getColorIdsForCategory m g exclusionIds ≠ [] ∧
         ∀ x ∈ getColorIdsForCategory m g exclusionIds, x ∈ colorIds)) ∧
    (∀ y, jsIncludesChar y ':' = false →
      (y ∈ consolidateColorIds (some m) colorIds exclusionIds ↔
        (y ∈ colorIds ∧
         (¬ ∃ f, (∀ x ∈ getColorIdsForFamily m f exclusionIds, x ∈ colorIds) ∧
            y ∈ getColorIdsForFamily m f exclusionIds) ∧
         (¬ ∃ g, (∀ x ∈ getColorIdsForCategory m g exclusionIds, x ∈ colorIds) ∧
            y ∈ getColorIdsForCategory m g exclusionIds)))) := by
  have hMf : ∀ f x, x ∈ getColorIdsForFamily m f exclusionIds →
      jsIncludesChar x ':' = false :=
    fun f x hx => getColorIdsForFamily_no_colon m hcat f exclusionIds x hx
  have hMc : ∀ g x, x ∈ getColorIdsForCategory m g exclusionIds →
      jsIncludesChar x ':' = false :=
    fun g x hx => getColorIdsForCategory_no_colon m hcat g exclusionIds x hx
  have hconsEq : consolidateColorIds (some m) colorIds exclusionIds =
      (getHiddenCategories m colorIds exclusionIds).foldl
        (fun acc g => jsSetAdd
          ((getColorIdsForCategory m g exclusionIds).foldl jsSetDelete acc)
          ("category:" ++ g))
        ((getHiddenFamilies m colorIds exclusionIds).foldl
          (fun acc f => jsSetAdd
            ((getColorIdsForFamily m f exclusionIds).foldl jsSetDelete acc)
            ("family:" ++ f))
          (jsSetFromList colorIds)) := by
    unfold consolidateColorIds
    dsimp only
    rw [if_neg hne]
  have hfamF := mem_consolidateFold
    (fun f => getColorIdsForFamily m f exclusionIds)
    (fun f => "family:" ++ f) hMf (fun f => famTok_hasColon f)
    (getHiddenFamilies m colorIds exclusionIds) (jsSetFromList colorIds)
  have hcatF := mem_consolidateFold
    (fun g => getColorIdsForCategory m g exclusionIds)
    (fun g => "category:" ++ g) hMc (fun g => catTok_hasColon g)
    (getHiddenCategories m colorIds exclusionIds)
    ((getHiddenFamilies m colorIds exclusionIds).foldl
      (fun acc f => jsSetAdd
        ((getColorIdsForFamily m f exclusionIds).foldl jsSetDelete acc)
        ("family:" ++ f))
      (jsSetFromList colorIds))
  have hbase : ∀ y, y ∈ jsSetFromList colorIds ↔ y ∈ colorIds := by
    intro y
    unfold jsSetFromList
    exact mem_dedupKeepFirst colorIds y
  refine ⟨?_, ?_, ?_⟩
  · -- family tokens
    intro f
    rw [hconsEq, hcatF]
    constructor
    · rintro (⟨hin, _⟩ | ⟨g, _, hEq⟩)
      · rw [hfamF] at hin
        rcases hin with ⟨hb, _⟩ | ⟨f', hf', hEq⟩
        · rw [hbase] at hb
          have := hids _ hb
          rw [famTok_hasColon f] at this
          exact absurd this (by simp)
        · obtain rfl := prefix_append_inj hEq
          exact (mem_getHiddenFamilies m colorIds exclusionIds f).mp hf'
      · exact absurd hEq (famTok_ne_catTok f g)
    · intro hf
      refine Or.inl ⟨?_, ?_⟩
      · rw [hfamF]
        exact Or.inr ⟨f, (mem_getHiddenFamilies m colorIds exclusionIds f).mpr hf, rfl⟩
      · intro g _ hmem
        have hcol := hMc g _ hmem
        rw [famTok_hasColon f] at hcol
        exact absurd hcol (by simp)
  · -- category tokens
    intro g
    rw [hconsEq, hcatF]
    constructor
    · rintro (⟨hin, _⟩ | ⟨g', hg', hEq⟩)
      · rw [hfamF] at hin
        rcases hin with ⟨hb, _⟩ | ⟨f', _, hEq⟩
        · rw [hbase] at hb
          have := hids _ hb
          rw [catTok_hasColon g] at this
          exact absurd this (by simp)
        · exact absurd hEq.symm (famTok_ne_catTok f' g)
      · obtain rfl := prefix_append_inj hEq
        exact (mem_getHiddenCategories m colorIds exclusionIds g).mp hg'
    · intro hg
      exact Or.inr ⟨g, (mem_getHiddenCategories m colorIds exclusionIds g).mpr hg, rfl⟩
  · -- bare color ids
    intro y hy
    have hnotFam : ∀ f, y ≠ "family:" ++ f := by
      intro f hEq
      rw [hEq, famTok_hasColon f] at hy
      exact absurd hy (by simp)
    have hnotCat : ∀ g, y ≠ "category:" ++ g := by
      intro g hEq
      rw [hEq, catTok_hasColon g] at hy
      exact absurd hy (by simp)
    have hfamIff :
        (∀ f ∈ getHiddenFamilies m colorIds exclusionIds,
          y ∉ getColorIdsForFamily m f exclusionIds) ↔
        ¬ ∃ f, (∀ x ∈ getColorIdsForFamily m f exclusionIds, x ∈ colorIds) ∧
          y ∈ getColorIdsForFamily m f exclusionIds := by
      constructor
      · rintro h ⟨f, hsub, hyf⟩
        have hf : f ∈ getHiddenFamilies m colorIds exclusionIds :=
          (mem_getHiddenFamilies m colorIds exclusionIds f).mpr
            ⟨mem_familyNames_of_mem m f exclusionIds y hyf,
             fun hEq => by rw [hEq] at hyf; exact List.not_mem_nil y hyf,
             hsub⟩
        exact h f hf hyf
      · intro h f hf hyf
        obtain ⟨_, _, hsub⟩ := (mem_getHiddenFamilies m colorIds exclusionIds f).mp hf
        exact h ⟨f, hsub, hyf⟩
    have hcatIff :
        (∀ g ∈ getHiddenCategories m colorIds exclusionIds,
          y ∉ getColorIdsForCategory m g exclusionIds) ↔
        ¬ ∃ g, (∀ x ∈ getColorIdsForCategory m g exclusionIds, x ∈ colorIds) ∧
          y ∈ getColorIdsForCategory m g exclusionIds := by
      constructor
      · rintro h ⟨g, hsub, hyg⟩
        have hg : g ∈ getHiddenCategories m colorIds exclusionIds :=
          (mem_getHiddenCategories m colorIds exclusionIds g).mpr
            ⟨mem_categoryNames_of_mem m g exclusionIds y hyg,
             fun hEq => by rw [hEq] at hyg; exact List.not_mem_nil y hyg,
             hsub⟩
        exact h g hg hyg
      · intro h g hg hyg
        obtain ⟨_, _, hsub⟩ := (mem_getHiddenCategories m colorIds exclusionIds g).mp hg
        exact h ⟨g, hsub, hyg⟩
    rw [hconsEq, hcatF]
    constructor
    · rintro (⟨hin, hcats⟩ | ⟨g, _, hEq⟩)
      · rw [hfamF] at hin
        rcases hin with ⟨hb, hfams⟩ | ⟨f, _, hEq⟩
        · exact ⟨(hbase y).mp hb, hfamIff.mp hfams, hcatIff.mp hcats⟩
        · exact absurd hEq (hnotFam f)
      · exact absurd hEq (hnotCat g)
    · rintro ⟨hy', hfams, hcats⟩
      refine Or.inl ⟨?_, hcatIff.mpr hcats⟩
      rw [hfamF]
      exact Or.inl ⟨(hbase y).mpr hy', hfamIff.mpr hfams⟩

/-- Witness for the amended C6: in `testCatalog`, hiding exactly the three
`Red` colors consolidates to the single token `family:Red`. -/
theorem C6_witness :
    "family:Red" ∈ consolidateColorIds (some testCatalog) ["10", "20", "30"] [] :=
  ((C6_consolidation_exact testCatalog ["10", "20", "30"] []
      (by decide) (by decide) (by decide)).1 "Red").mpr (by decide)

/-! Positional-numeral lemmas for the Base85 round trip (C5). -/

theorem digitsLE_length (B k v : Nat) : (digitsLE B k v).length = k := by
  induction k generalizing v with
  | zero => rfl
  | succ k ih => rw [digitsLE]; simp [ih]

/-- A base-`B` little-endian numeral with digits below `B` is below
`B ^ length`. -/
theorem foldr_lt_pow (B : Nat) (hB : 0 < B) (d : List Nat)
    (h : ∀ x ∈ d, x < B) :
    d.foldr (fun b acc => acc * B + b) 0 < B ^ d.length := by
  induction d with
  | nil => simpa using Nat.one_pos
  | cons x t ih =>
      have hx : x < B := h x (by simp)
      have ht := ih (fun y hy => h y (by simp [hy]))
      rw [List.foldr_cons, List.length_cons, pow_succ]
      have step1 : (t.foldr (fun b acc => acc * B + b) 0) * B + x <
          ((t.foldr (fun b acc => acc * B + b) 0) + 1) * B := by
        rw [Nat.succ_mul]
        exact Nat.add_lt_add_left hx _
      exact lt_of_lt_of_le step1 (Nat.mul_le_mul_right B ht)

/-- Digit extraction is a left inverse of numeral evaluation. -/
theorem digitsLE_foldr (B : Nat) (hB : 0 < B) (d : List Nat)
    (h : ∀ x ∈ d, x < B) :
    digitsLE B d.length (d.foldr (fun b acc => acc * B + b) 0) = d := by
  induction d with
  | nil => rfl
  | cons x t ih =>
      rw [List.length_cons, List.foldr_cons, digitsLE]
      have hx : x < B := h x (by simp)
      have hmod : ((t.foldr (fun b acc => acc * B + b) 0) * B + x) % B = x := by
        rw [mul_comm, Nat.mul_add_mod, Nat.mod_eq_of_lt hx]
      have hdiv : ((t.foldr (fun b acc => acc * B + b) 0) * B + x) / B =
          t.foldr (fun b acc => acc * B + b) 0 := by
        rw [mul_comm, Nat.mul_add_div hB, Nat.div_eq_of_lt hx, Nat.add_zero]
      rw [hmod, hdiv, ih (fun y hy => h y (by simp [hy]))]

/-- Numeral evaluation of the extracted digits gives the value mod
`B ^ k`. -/
theorem foldr_digitsLE (B : Nat) (hB : 0 < B) (k : Nat) :
    ∀ v, (digitsLE B k v).foldr (fun b acc => acc * B + b) 0 = v % B ^ k := by
  induction k with
  | zero => intro v; simp [digitsLE, Nat.mod_one]
  | succ k ih =>
      intro v
      rw [digitsLE, List.foldr_cons, ih]
      rw [pow_succ']
      rw [Nat.mod_mul]
      ring

/-- The source's big-endian packing loop, read as a foldr over the
reversed digits. -/
theorem foldl_base_reverse (B : Nat) (l : List Nat) (a : Nat) :
    l.foldl (fun v b => v * B + b) a =
      l.reverse.foldr (fun b acc => acc * B + b) a := by
  conv_lhs => rw [← List.reverse_reverse l]
  rw [List.foldl_reverse]

theorem encodeChunk_length (chunk : List Nat) :
    (encodeChunk chunk).length = chunk.length + 1 := by
  unfold encodeChunk
  simp [digitsLE_length]

/-- Looking an alphabet character back up returns its digit. -/
theorem alphaIdx : ∀ d : Nat, d < 85 →
    indexInAlphabet BASE85_CHARS (BASE85_CHARS.getD d ' ') = some d := by
  decide

/-- Decoding the mapped digits accumulates exactly the base-85 numeral. -/
theorem decodeChunkValue_map (ds : List Nat) (h : ∀ d ∈ ds, d < 85) :
    ∀ acc, decodeChunkValue (ds.map (fun d => BASE85_CHARS.getD d ' ')) acc =
      .ok (ds.foldl (fun a d => a * 85 + d) acc) := by
  induction ds with
  | nil => intro acc; rfl
  | cons d t ih =>
      intro acc
      rw [List.map_cons, decodeChunkValue, alphaIdx d (h d (by simp))]
      exact ih (fun y hy => h y (by simp [hy])) _

/-- Chunk-level round trip: decoding an encoded chunk of at most four
bytes recovers the bytes. -/
theorem decodeChunk_encodeChunk (c : List Nat) (h : ∀ x ∈ c, x < 256)
    (hlen : c.length ≤ 4) :
    decodeChunk (encodeChunk c) = .ok c := by
  have hrev : ∀ x ∈ c.reverse, x < 256 := by simpa using h
  have hv : c.foldl (fun v b => v * 256 + b) 0 =
      c.reverse.foldr (fun b acc => acc * 256 + b) 0 :=
    foldl_base_reverse 256 c 0
  have hvlt : c.foldl (fun v b => v * 256 + b) 0 < 256 ^ c.length := by
    rw [hv]
    simpa using foldr_lt_pow 256 (by norm_num) c.reverse hrev
  have hbound : 256 ^ c.length ≤ 85 ^ (c.length + 1) := by
    have : c.length = 0 ∨ c.length = 1 ∨ c.length = 2 ∨ c.length = 3 ∨
        c.length = 4 := by omega
    rcases this with h5 | h5 | h5 | h5 | h5 <;> rw [h5] <;> norm_num
  have hds : ∀ d ∈ (digitsLE 85 (c.length + 1)
      (c.foldl (fun v b => v * 256 + b) 0)).reverse, d < 85 := by
    intro d hd
    exact digitsLE_lt 85 _ _ (by norm_num) d (List.mem_reverse.mp hd)
  unfold decodeChunk encodeChunk
  rw [decodeChunkValue_map _ hds 0]
  have hval : (digitsLE 85 (c.length + 1)
        (c.foldl (fun v b => v * 256 + b) 0)).reverse.foldl
      (fun a d => a * 85 + d) 0 = c.foldl (fun v b => v * 256 + b) 0 := by
    rw [foldl_base_reverse 85, List.reverse_reverse,
      foldr_digitsLE 85 (by norm_num)]
    exact Nat.mod_eq_of_lt (lt_of_lt_of_le hvlt hbound)
  rw [hval]
  have hlength : ((digitsLE 85 (c.length + 1)
      (c.foldl (fun v b => v * 256 + b) 0)).reverse.map
        (fun d => BASE85_CHARS.getD d ' ')).length - 1 = c.length := by
    simp [digitsLE_length]
  rw [hlength]
  unfold bytesBE
  have hc : digitsLE 256 c.length (c.foldl (fun v b => v * 256 + b) 0) =
      c.reverse := by
    rw [hv]
    have := digitsLE_foldr 256 (by norm_num) c.reverse hrev
    rwa [List.length_reverse] at this
  dsimp only
  rw [hc, List.reverse_reverse]

/-- `fromBase85` on one to four characters is a single final chunk. -/
theorem fromBase85_short (s : List Char) (h1 : 1 ≤ s.length)
    (h4 : s.length ≤ 4) : fromBase85 s = decodeChunk s := by
  rcases s with _ | ⟨a, _ | ⟨b, _ | ⟨c, _ | ⟨d, _ | ⟨e, tail⟩⟩⟩⟩⟩
  · simp at h1
  · rfl
  · rfl
  · rfl
  · rfl
  · simp at h4

/-- `fromBase85` takes the five-character chunk off the front. -/
theorem fromBase85_append_five (s t : List Char) (h : s.length = 5) :
    fromBase85 (s ++ t) =
      (match decodeChunk s with
       | .error e => .error e
       | .ok bytes =>
           match fromBase85 t with
           | .error e => .error e
           | .ok tail => .ok (bytes ++ tail)) := by
  rcases s with _ | ⟨a, _ | ⟨b, _ | ⟨c, _ | ⟨d, _ | ⟨e, tail⟩⟩⟩⟩⟩ <;>
    simp only [List.length_nil, List.length_cons] at h
  · omega
  · omega
  · omega
  · omega
  · omega
  · have htail : tail = [] := by
      have hlen0 : tail.length = 0 := by omega
      exact List.eq_nil_of_length_eq_zero hlen0
    subst htail
    rfl

/-- Claim C5 part 1 as a standalone lemma: the Base85 round trip. -/
theorem fromBase85_toBase85 (b : List Nat) (h : ∀ x ∈ b, x < 256) :
    fromBase85 (toBase85 b) = .ok b := by
  induction b using toBase85.induct with
  | case1 => rfl
  | case2 a =>
      rw [toBase85, fromBase85_short _ (by simp [encodeChunk_length])
        (by simp [encodeChunk_length])]
      exact decodeChunk_encodeChunk [a] (by simpa using h) (by simp)
  | case3 a b =>
      rw [toBase85, fromBase85_short _ (by simp [encodeChunk_length])
        (by simp [encodeChunk_length])]
      exact decodeChunk_encodeChunk [a, b] (by simpa using h) (by simp)
  | case4 a b c =>
      rw [toBase85, fromBase85_short _ (by simp [encodeChunk_length])
        (by simp [encodeChunk_length])]
      exact decodeChunk_encodeChunk [a, b, c] (by simpa using h) (by simp)
  | case5 a b c d rest ih =>
      rw [toBase85, fromBase85_append_five _ _ (by simp [encodeChunk_length])]
      rw [decodeChunk_encodeChunk [a, b, c, d]
        (by intro x hx; exact h x (by simp at hx; rcases hx with h' | h' | h' | h' <;> simp [h']))
        (by simp)]
      rw [ih (fun x hx => h x (by simp [hx]))]
      simp

/-- Claim C5 part 2 as a standalone lemma: the output length. -/
theorem toBase85_length (b : List Nat) :
    (toBase85 b).length = 5 * (b.length / 4) +
      (if b.length % 4 = 0 then 0 else b.length % 4 + 1) := by
  induction b using toBase85.induct with
  | case1 => rfl
  | case2 a => simp [toBase85, encodeChunk_length]
  | case3 a b => simp [toBase85, encodeChunk_length]
  | case4 a b c => simp [toBase85, encodeChunk_length]
  | case5 a b c d rest ih =>
      rw [toBase85]
      simp only [List.length_append, encodeChunk_length, List.length_cons, ih]
      have h4 : (rest.length + 4) / 4 = rest.length / 4 + 1 := by omega
      have hm : (rest.length + 4) % 4 = rest.length % 4 := by omega
      by_cases hz : rest.length % 4 = 0 <;>
        simp [List.length_cons, h4, hm, hz] <;> omega

theorem indexInAlphabet_eq_none (l : List Char) (c : Char) (h : c ∉ l) :
    indexInAlphabet l c = none := by
  induction l with
  | nil => rfl
  | cons a t ih =>
      rw [indexInAlphabet]
      rw [if_neg (fun hEq => h (by simp [hEq]))]
      rw [ih (fun hm => h (List.mem_cons_of_mem _ hm))]
      rfl

theorem decodeChunkValue_error (chunk : List Char)
    (h : ∃ c ∈ chunk, c ∉ BASE85_CHARS) :
    ∀ acc, ∃ e, decodeChunkValue chunk acc = .error e := by
  induction chunk with
  | nil => simp at h
  | cons c t ih =>
      intro acc
      obtain ⟨x, hx, hout⟩ := h
      rcases List.mem_cons.mp hx with rfl | hxt
      · rw [decodeChunkValue, indexInAlphabet_eq_none _ _ hout]
        exact ⟨_, rfl⟩
      · rw [decodeChunkValue]
        rcases hidx : indexInAlphabet BASE85_CHARS c with _ | i
        · exact ⟨_, rfl⟩
        · exact ih ⟨x, hxt, hout⟩ _

theorem decodeChunk_error (chunk : List Char)
    (h : ∃ c ∈ chunk, c ∉ BASE85_CHARS) :
    ∃ e, decodeChunk chunk = .error e := by
  obtain ⟨e, he⟩ := decodeChunkValue_error chunk h 0
  exact ⟨e, by unfold decodeChunk; rw [he]⟩

/-- Claim C5 part 3 as a standalone lemma: rejection of any character
outside the alphabet. -/
theorem fromBase85_error : ∀ (s : List Char),
    (∃ c ∈ s, c ∉ BASE85_CHARS) → ∃ e, fromBase85 s = .error e := by
  have main : ∀ (n : Nat) (s : List Char), s.length ≤ n →
      (∃ c ∈ s, c ∉ BASE85_CHARS) → ∃ e, fromBase85 s = .error e := by
    intro n
    induction n with
    | zero =>
        intro s hs h
        have : s = [] := List.eq_nil_of_length_eq_zero (by omega)
        subst this
        simp at h
    | succ n ih =>
        intro s hs h
        rcases s with _ | ⟨a, _ | ⟨b, _ | ⟨c, _ | ⟨d, _ | ⟨e, rest⟩⟩⟩⟩⟩
        · simp at h
        · exact decodeChunk_error [a] h
        · exact decodeChunk_error [a, b] h
        · exact decodeChunk_error [a, b, c] h
        · exact decodeChunk_error [a, b, c, d] h
        · obtain ⟨x, hx, hout⟩ := h
          rw [fromBase85]
          by_cases hfirst : x ∈ ([a, b, c, d, e] : List Char)
          · obtain ⟨err, herr⟩ := decodeChunk_error [a, b, c, d, e]
              ⟨x, hfirst, hout⟩
            rw [herr]
            exact ⟨err, rfl⟩
          · have hrest : x ∈ rest := by
              simp only [List.mem_cons] at hx hfirst
              tauto
            have hlen : rest.length ≤ n := by
              simp only [List.length_cons] at hs
              omega
            obtain ⟨err, herr⟩ := ih rest hlen ⟨x, hrest, hout⟩
            rcases hch : decodeChunk [a, b, c, d, e] with e2 | bytes
            · exact ⟨e2, rfl⟩
            · rw [herr]
              exact ⟨err, rfl⟩
  exact fun s => main s.length s (Nat.le_refl _)

/-- Claim C5: `fromBase85 ∘ toBase85` is the identity on byte sequences
(including the empty one); `toBase85` emits five characters per full
four-byte chunk and `k + 1` characters for a final `k`-byte chunk; and
`fromBase85` rejects any string containing a character outside the
85-character alphabet. -/
theorem C5_base85_transcoder :
    (∀ b : List Nat, (∀ x ∈ b, x < 256) → fromBase85 (toBase85 b) = .ok b) ∧
    (∀ b : List Nat, (toBase85 b).length = 5 * (b.length / 4) +
      (if b.length % 4 = 0 then 0 else b.length % 4 + 1)) ∧
    (∀ s : List Char, (∃ c ∈ s, c ∉ BASE85_CHARS) →
      ∃ e, fromBase85 s = .error e) :=
  ⟨fromBase85_toBase85, toBase85_length, fromBase85_error⟩

/-- Witness for C5: a concrete three-byte round trip. -/
theorem C5_witness : fromBase85 (toBase85 [0, 255, 1]) = .ok [0, 255, 1] :=
  C5_base85_transcoder.1 [0, 255, 1] (by decide)

end SwColorTester
